import Mathlib

/-!
Verification development for the gopher-dance-party dancefloor service
(`main.go`, two revisions concatenated in the source file).

The service stores 2D positions keyed by an identifier in a single redis
hash (`"gophers"`). We embed the parts of the program the specification
talks about:

* the value encodings of the `/add` and `/move` handlers
  (`fmt.Sprintf("%s,%s", x, y)` resp. `fmt.Sprintf("%s, %s", x, y)`),
* the `/fetch` handler's decode loop (`strings.Split(value, ",")` followed
  by `strconv.ParseFloat` on `positions[0]` and `positions[1]` with the
  error ignored),
* the redis hash commands issued (`HSETNX`, `HSET`, `HDEL`, `HGETALL`)
  modelled as operations on an association list,
* the HTTP handlers of both revisions: parameter validation, the store
  command issued, the HTTP status and the sequence of body writes.

Strings are `List Char`; Go's `strings.Split` on the one-byte separator
`","` coincides with per-character splitting. Coordinate values are `ℚ`:
every concrete decimal used below is exactly representable as a binary
float64, so float64 rounding never distinguishes the modelled value from
the Go value on the inputs that appear in the theorems.
-/

abbrev Str := List Char

/-- Decimal digit test, as in Go's number scanners. -/
def isDigit (c : Char) : Bool := decide ('0' ≤ c) && decide (c ≤ '9')

/-- Numeric value of a string of decimal digits, most significant first. -/
def digitsToNat (ds : Str) : ℕ :=
  ds.foldl (fun n c => 10 * n + (c.toNat - '0'.toNat)) 0

/-- Model of Go `strconv.ParseFloat(s, 64)` restricted to the decimal
syntax: optional sign, digits with at most one dot (at least one digit in
total), optional `e`/`E` exponent with optional sign. The result is the
exactly parsed rational; float64 rounding, range overflow to ±Inf,
`inf`/`nan` literals, hexadecimal floats and digit-group underscores are
not modelled — no theorem below depends on those inputs. Everything the
claims need is the acceptance/rejection behaviour (in particular: no
surrounding whitespace is accepted, matching Go) and the exact value on
plain decimals. Returns `none` exactly where Go returns a syntax error,
in which case the caller `x, _ := strconv.ParseFloat(...)` sees `0`. -/
def parseF (s : Str) : Option ℚ :=
  let (neg, s1) : Bool × Str :=
    match s with
    | '+' :: rest => (false, rest)
    | '-' :: rest => (true, rest)
    | _ => (false, s)
  let d1 := s1.takeWhile isDigit
  let r1 := s1.dropWhile isDigit
  let (d2, r2) : Str × Str :=
    match r1 with
    | '.' :: rest => (rest.takeWhile isDigit, rest.dropWhile isDigit)
    | _ => ([], r1)
  if d1 = [] ∧ d2 = [] then none
  else
    let n : ℤ := (if neg then -1 else 1) * (digitsToNat (d1 ++ d2) : ℤ)
    let den : ℕ := 10 ^ d2.length
    match r2 with
    | [] => some (mkRat n den)
    | e :: rest =>
      if e = 'e' ∨ e = 'E' then
        let (eneg, es) : Bool × Str :=
          match rest with
          | '+' :: t => (false, t)
          | '-' :: t => (true, t)
          | _ => (false, rest)
        let ed := es.takeWhile isDigit
        if ed = [] ∨ es.dropWhile isDigit ≠ [] then none
        else if eneg then some (mkRat n (den * 10 ^ digitsToNat ed))
        else some (mkRat (n * ((10 ^ digitsToNat ed : ℕ) : ℤ)) den)
      else none

/-- Model of Go `strings.Split(v, ",")`: the list of maximal comma-free
segments; `n` commas give `n + 1` segments, the empty string gives one
empty segment. -/
def splitOnComma : Str → List Str
  | [] => [[]]
  | c :: rest =>
    if c = ',' then [] :: splitOnComma rest
    else
      match splitOnComma rest with
      | s :: ss => (c :: s) :: ss
      | [] => [[c]]

/-- The `Position` struct of `main.go` (fields `X`, `Y`, float64). -/
structure Position where
  X : ℚ
  Y : ℚ
deriving DecidableEq, Repr

/-- Decode of one stored value inside the `/fetch` loop:
`positions := strings.Split(value, ","); x, _ := ParseFloat(positions[0]);
y, _ := ParseFloat(positions[1])`. A parse error is ignored, leaving the
Go zero value `0`. When the split yields fewer than two segments the Go
code indexes `positions[1]` out of range and panics: modelled as `none`. -/
def decodeValue (v : Str) : Option Position :=
  match splitOnComma v with
  | p0 :: p1 :: _ => some ⟨(parseF p0).getD 0, (parseF p1).getD 0⟩
  | _ => none

/-- The redis hash `"gophers"`: field/value pairs, at most one entry per
field (all operations below preserve that when it holds initially). -/
abbrev Store := List (Str × Str)

/-- The `/fetch` handler's decode loop over the `HGETALL` reply: decodes
every stored pair in order. `none` models the loop panicking on a value
with fewer than two split segments (index out of range), which aborts the
whole fetch. -/
def fetchAll : Store → Option (List (Str × Position))
  | [] => some []
  | (k, v) :: rest =>
    match decodeValue v, fetchAll rest with
    | some p, some l => some ((k, p) :: l)
    | _, _ => none

/-- Value encoding on the `/add` path: `fmt.Sprintf("%s,%s", x, y)`. -/
def encodeAdd (x y : Str) : Str := x ++ ',' :: y

/-- Value encoding on the `/move` path: `fmt.Sprintf("%s, %s", x, y)` —
note the space after the comma, unlike the `/add` path. -/
def encodeMove (x y : Str) : Str := x ++ ',' :: ' ' :: y

/-- Membership of a field in the hash. -/
def keyMem (k : Str) (s : Store) : Bool := s.any (fun kv => decide (kv.1 = k))

/-- Value stored under a field (first match). -/
def hget : Store → Str → Option Str
  | [], _ => none
  | (k, v) :: rest, q => if k = q then some v else hget rest q

/-- Redis `HSETNX hash k v`: write only if the field is absent. -/
def hsetnx (s : Store) (k v : Str) : Store :=
  if keyMem k s then s else s ++ [(k, v)]

/-- Redis `HSET hash k v`: unconditional upsert. -/
def hset (s : Store) (k v : Str) : Store :=
  if keyMem k s then s.map (fun kv => if kv.1 = k then (k, v) else kv)
  else s ++ [(k, v)]

/-- Redis `HDEL hash k`: remove the field if present. -/
def hdel (s : Store) (k : Str) : Store :=
  s.filter (fun kv => decide (kv.1 ≠ k))

/-- Success body written by `fmt.Fprintf(w, "ok")`. -/
def okBody : Str := "ok".toList

/-- Body written by `handleParamsError` via
`http.Error(w, "missing required params", http.StatusBadRequest)`. -/
def missingParamsBody : Str := "missing required params".toList

/-- Result of one handler invocation: the hash after the request, the HTTP
status, the body writes in order, and the names of the redis commands
issued (issued also when they fail; empty when validation stops the
handler before any store access). -/
structure HResult where
  store : Store
  status : ℕ
  writes : List Str
  ops : List Str
deriving DecidableEq, Repr

/-- Second-revision `/add` handler: validates `id`, `x`, `y` nonempty
(`r.URL.Query().Get` yields `""` for a missing parameter), issues
`HSETNX gophers id "<x>,<y>"` and writes `"ok"` only when the command
succeeded (`if err == nil`). `e = some m` models the redis command failing
with error text `m`: `handleRedisError` writes `m` with status 500 and no
mutation happens. -/
def addHandler (s : Store) (e : Option Str) (id x y : Str) : HResult :=
  if id = [] ∨ x = [] ∨ y = [] then ⟨s, 400, [missingParamsBody], []⟩
  else
    match e with
    | some m => ⟨s, 500, [m], ["HSETNX".toList]⟩
    | none => ⟨hsetnx s id (encodeAdd x y), 200, [okBody], ["HSETNX".toList]⟩

/-- Second-revision `/move` handler: like `/add` but issues
`HSET gophers id "<x>, <y>"` (unconditional overwrite, space after the
comma in the encoding). -/
def moveHandler (s : Store) (e : Option Str) (id x y : Str) : HResult :=
  if id = [] ∨ x = [] ∨ y = [] then ⟨s, 400, [missingParamsBody], []⟩
  else
    match e with
    | some m => ⟨s, 500, [m], ["HSET".toList]⟩
    | none => ⟨hset s id (encodeMove x y), 200, [okBody], ["HSET".toList]⟩

/-- Second-revision `/del` handler: validates `id` nonempty, issues
`HDEL gophers id`, writes `"ok"` only when the command succeeded. The
`HDEL` reply (number of fields removed) is discarded, so deleting an
absent field behaves like deleting a present one. -/
def delHandler (s : Store) (e : Option Str) (id : Str) : HResult :=
  if id = [] then ⟨s, 400, [missingParamsBody], []⟩
  else
    match e with
    | some m => ⟨s, 500, [m], ["HDEL".toList]⟩
    | none => ⟨hdel s id, 200, [okBody], ["HDEL".toList]⟩

/-- First-revision `/add` handler: identical validation and command, but
the result of `performRedisOperation` is discarded and
`fmt.Fprintf(w, "ok")` runs unconditionally, so on a store failure the
body holds the error text (written by `handleRedisError` with status 500)
followed by `"ok"`. -/
def addHandlerV1 (s : Store) (e : Option Str) (id x y : Str) : HResult :=
  if id = [] ∨ x = [] ∨ y = [] then ⟨s, 400, [missingParamsBody], []⟩
  else
    match e with
    | some m => ⟨s, 500, [m, okBody], ["HSETNX".toList]⟩
    | none => ⟨hsetnx s id (encodeAdd x y), 200, [okBody], ["HSETNX".toList]⟩

/-- First-revision `/move` handler: unconditional `"ok"` write, like
`addHandlerV1`. -/
def moveHandlerV1 (s : Store) (e : Option Str) (id x y : Str) : HResult :=
  if id = [] ∨ x = [] ∨ y = [] then ⟨s, 400, [missingParamsBody], []⟩
  else
    match e with
    | some m => ⟨s, 500, [m, okBody], ["HSET".toList]⟩
    | none => ⟨hset s id (encodeMove x y), 200, [okBody], ["HSET".toList]⟩

/-- First-revision `/del` handler: unconditional `"ok"` write. -/
def delHandlerV1 (s : Store) (e : Option Str) (id : Str) : HResult :=
  if id = [] then ⟨s, 400, [missingParamsBody], []⟩
  else
    match e with
    | some m => ⟨s, 500, [m, okBody], ["HDEL".toList]⟩
    | none => ⟨hdel s id, 200, [okBody], ["HDEL".toList]⟩

/-- Store states reachable from the empty hash through the service's own
mutating handlers (any parameters, the store command succeeding or
failing). External writers bypassing the service are not included. -/
inductive Reachable : Store → Prop
  | init : Reachable []
  | addStep (s : Store) (e : Option Str) (id x y : Str) :
      Reachable s → Reachable (addHandler s e id x y).store
  | moveStep (s : Store) (e : Option Str) (id x y : Str) :
      Reachable s → Reachable (moveHandler s e id x y).store
  | delStep (s : Store) (e : Option Str) (id : Str) :
      Reachable s → Reachable (delHandler s e id).store

theorem splitOnComma_ne_nil (v : Str) : splitOnComma v ≠ [] := by
  induction v with
  | nil => simp [splitOnComma]
  | cons c rest ih =>
    simp only [splitOnComma]
    by_cases h : c = ','
    · simp [h]
    · simp only [if_neg h]
      cases hs : splitOnComma rest with
      | nil => simp
      | cons s ss => simp

theorem splitOnComma_no_comma (v : Str) (h : ',' ∉ v) : splitOnComma v = [v] := by
  induction v with
  | nil => rfl
  | cons c rest ih =>
    simp only [List.mem_cons, not_or] at h
    have hc : ¬ c = ',' := fun he => h.1 he.symm
    simp only [splitOnComma, if_neg hc]
    rw [ih h.2]

theorem splitOnComma_append (x y : Str) (h : ',' ∉ x) :
    splitOnComma (x ++ ',' :: y) = x :: splitOnComma y := by
  induction x with
  | nil => simp [splitOnComma]
  | cons c rest ih =>
    simp only [List.mem_cons, not_or] at h
    have hc : ¬ c = ',' := fun he => h.1 he.symm
    simp only [List.cons_append, splitOnComma, if_neg hc, List.append_eq]
    rw [ih h.2]

theorem two_le_splitOnComma_length (v : Str) (h : ',' ∈ v) :
    2 ≤ (splitOnComma v).length := by
  induction v with
  | nil => simp at h
  | cons c rest ih =>
    simp only [splitOnComma]
    by_cases hc : c = ','
    · have h1 : splitOnComma rest ≠ [] := splitOnComma_ne_nil rest
      have h2 : 0 < (splitOnComma rest).length := List.length_pos.mpr h1
      simp only [if_pos hc, List.length_cons]
      omega
    · have hr : ',' ∈ rest := by
        rcases List.mem_cons.mp h with h1 | h2
        · exact absurd h1.symm hc
        · exact h2
      have h2 := ih hr
      simp only [if_neg hc]
      cases hs : splitOnComma rest with
      | nil => exact absurd hs (splitOnComma_ne_nil rest)
      | cons s ss =>
        rw [hs] at h2
        simpa using h2

theorem decodeValue_encodeAdd (x y : Str) (hx : ',' ∉ x) (hy : ',' ∉ y) :
    decodeValue (encodeAdd x y) = some ⟨(parseF x).getD 0, (parseF y).getD 0⟩ := by
  unfold decodeValue encodeAdd
  rw [splitOnComma_append x y hx, splitOnComma_no_comma y hy]

theorem decodeValue_encodeMove (x y : Str) (hx : ',' ∉ x) (hy : ',' ∉ y) :
    decodeValue (encodeMove x y) =
      some ⟨(parseF x).getD 0, (parseF (' ' :: y)).getD 0⟩ := by
  have hy' : ',' ∉ (' ' :: y) := by
    simp only [List.mem_cons, not_or]
    exact ⟨by decide, hy⟩
  unfold decodeValue encodeMove
  rw [show x ++ ',' :: ' ' :: y = x ++ ',' :: (' ' :: y) from rfl,
    splitOnComma_append x (' ' :: y) hx, splitOnComma_no_comma (' ' :: y) hy']

theorem decodeValue_isSome_of_comma (v : Str) (h : ',' ∈ v) :
    (decodeValue v).isSome := by
  unfold decodeValue
  have h2 := two_le_splitOnComma_length v h
  cases hs : splitOnComma v with
  | nil => rw [hs] at h2; simp at h2
  | cons p0 ps =>
    cases ps with
    | nil => rw [hs] at h2; simp at h2
    | cons p1 rest => simp

theorem fetchAll_keys (s : Store) (l : List (Str × Position))
    (h : fetchAll s = some l) : l.map Prod.fst = s.map Prod.fst := by
  induction s generalizing l with
  | nil =>
    simp only [fetchAll, Option.some_inj] at h
    subst h; rfl
  | cons kv rest ih =>
    obtain ⟨k, v⟩ := kv
    simp only [fetchAll] at h
    cases hd : decodeValue v with
    | none => rw [hd] at h; simp at h
    | some p =>
      rw [hd] at h
      cases hr : fetchAll rest with
      | none => rw [hr] at h; simp at h
      | some lr =>
        rw [hr, Option.some_inj] at h
        subst h
        simp [ih lr hr]

theorem fetchAll_append (s t : Store) (ls lt : List (Str × Position))
    (hs : fetchAll s = some ls) (ht : fetchAll t = some lt) :
    fetchAll (s ++ t) = some (ls ++ lt) := by
  induction s generalizing ls with
  | nil =>
    simp only [fetchAll, Option.some_inj] at hs
    subst hs; simpa using ht
  | cons kv rest ih =>
    obtain ⟨k, v⟩ := kv
    simp only [fetchAll] at hs
    cases hd : decodeValue v with
    | none => rw [hd] at hs; simp at hs
    | some p =>
      rw [hd] at hs
      cases hr : fetchAll rest with
      | none => rw [hr] at hs; simp at hs
      | some lr =>
        rw [hr, Option.some_inj] at hs
        subst hs
        simp only [List.cons_append, fetchAll, hd, List.append_eq, ih lr hr]

theorem fetchAll_mem (s : Store) (l : List (Str × Position)) (k v : Str)
    (p : Position) (hf : fetchAll s = some l) (hm : (k, v) ∈ s)
    (hd : decodeValue v = some p) : (k, p) ∈ l := by
  induction s generalizing l with
  | nil => simp at hm
  | cons kv rest ih =>
    obtain ⟨k0, v0⟩ := kv
    simp only [fetchAll] at hf
    cases hd0 : decodeValue v0 with
    | none => rw [hd0] at hf; simp at hf
    | some p0 =>
      rw [hd0] at hf
      cases hr : fetchAll rest with
      | none => rw [hr] at hf; simp at hf
      | some lr =>
        rw [hr, Option.some_inj] at hf
        subst hf
        rcases List.mem_cons.mp hm with h1 | h2
        · obtain ⟨he1, he2⟩ := Prod.mk.injEq .. ▸ h1
          subst he1; subst he2
          rw [hd0] at hd
          simp [Option.some_inj.mp hd]
        · exact List.mem_cons_of_mem _ (ih lr hr h2)

theorem fetchAll_isSome (s : Store)
    (h : ∀ kv ∈ s, (decodeValue kv.2).isSome) :
    ∃ l, fetchAll s = some l := by
  induction s with
  | nil => exact ⟨[], rfl⟩
  | cons kv rest ih =>
    obtain ⟨k, v⟩ := kv
    have hv := h (k, v) (List.mem_cons_self _ _)
    obtain ⟨p, hp⟩ := Option.isSome_iff_exists.mp hv
    obtain ⟨lr, hlr⟩ := ih fun kv hkv => h kv (List.mem_cons_of_mem _ hkv)
    exact ⟨(k, p) :: lr, by simp only [fetchAll, hp, hlr]⟩

theorem keyMem_iff (k : Str) (s : Store) :
    keyMem k s = true ↔ k ∈ s.map Prod.fst := by
  simp only [keyMem, List.any_eq_true, decide_eq_true_eq, List.mem_map]

theorem hsetnx_absent (s : Store) (k v : Str) (h : k ∉ s.map Prod.fst) :
    hsetnx s k v = s ++ [(k, v)] := by
  unfold hsetnx
  rw [if_neg]
  intro hm
  exact h ((keyMem_iff k s).mp hm)

theorem hsetnx_present (s : Store) (k v : Str) (h : k ∈ s.map Prod.fst) :
    hsetnx s k v = s := by
  unfold hsetnx
  rw [if_pos ((keyMem_iff k s).mpr h)]

theorem hget_append_last (s : Store) (k v : Str) (h : k ∉ s.map Prod.fst) :
    hget (s ++ [(k, v)]) k = some v := by
  induction s with
  | nil => simp [hget]
  | cons kv rest ih =>
    obtain ⟨k0, v0⟩ := kv
    simp only [List.map_cons, List.mem_cons, not_or] at h
    have hk : ¬ k0 = k := fun he => h.1 he.symm
    simp only [List.cons_append, hget, if_neg hk]
    exact ih h.2

theorem hget_map_set (s : Store) (k v : Str) (hm : k ∈ s.map Prod.fst) :
    hget (s.map (fun kv => if kv.1 = k then (k, v) else kv)) k = some v := by
  induction s with
  | nil => simp at hm
  | cons kv0 rest ih =>
    obtain ⟨k0, v0⟩ := kv0
    by_cases hk : k0 = k
    · subst hk
      rw [List.map_cons, if_pos (show (k0, v0).1 = k0 from rfl)]
      simp [hget]
    · have h1 : (if (k0, v0).1 = k then (k, v) else (k0, v0)) = (k0, v0) :=
        if_neg hk
      rw [List.map_cons, h1]
      have h2 : k ∈ rest.map Prod.fst := by
        simp only [List.map_cons, List.mem_cons] at hm
        rcases hm with he | hr
        · exact absurd he.symm hk
        · exact hr
      simp only [hget, if_neg hk]
      exact ih h2

theorem hget_hset (s : Store) (k v : Str) : hget (hset s k v) k = some v := by
  unfold hset
  by_cases hm : keyMem k s = true
  · rw [if_pos hm]
    exact hget_map_set s k v ((keyMem_iff k s).mp hm)
  · rw [if_neg hm]
    apply hget_append_last
    intro hmem
    exact hm ((keyMem_iff k s).mpr hmem)

theorem hdel_not_key (s : Store) (k : Str) : k ∉ (hdel s k).map Prod.fst := by
  intro h
  rw [List.mem_map] at h
  obtain ⟨kv, hkv, he⟩ := h
  rw [hdel, List.mem_filter] at hkv
  have := hkv.2
  rw [decide_eq_true_eq] at this
  exact this he

theorem hdel_subset (s : Store) (k : Str) (kv : Str × Str)
    (h : kv ∈ hdel s k) : kv ∈ s := by
  rw [hdel, List.mem_filter] at h
  exact h.1

theorem mem_hsetnx (s : Store) (k v : Str) (kv : Str × Str)
    (h : kv ∈ hsetnx s k v) : kv ∈ s ∨ kv = (k, v) := by
  unfold hsetnx at h
  by_cases hm : keyMem k s = true
  · rw [if_pos hm] at h; exact Or.inl h
  · rw [if_neg hm, List.mem_append] at h
    rcases h with h1 | h2
    · exact Or.inl h1
    · exact Or.inr (List.mem_singleton.mp h2)

theorem mem_hset (s : Store) (k v : Str) (kv : Str × Str)
    (h : kv ∈ hset s k v) : kv ∈ s ∨ kv = (k, v) := by
  unfold hset at h
  by_cases hm : keyMem k s = true
  · rw [if_pos hm, List.mem_map] at h
    obtain ⟨a, ha, he⟩ := h
    by_cases hk : a.1 = k
    · rw [if_pos hk] at he; exact Or.inr he.symm
    · rw [if_neg hk] at he; exact Or.inl (he ▸ ha)
  · rw [if_neg hm, List.mem_append] at h
    rcases h with h1 | h2
    · exact Or.inl h1
    · exact Or.inr (List.mem_singleton.mp h2)

theorem addHandler_store_cases (s : Store) (e : Option Str) (id x y : Str) :
    (addHandler s e id x y).store = s ∨
    (addHandler s e id x y).store = hsetnx s id (encodeAdd x y) := by
  unfold addHandler
  by_cases hval : id = [] ∨ x = [] ∨ y = []
  · rw [if_pos hval]; exact Or.inl rfl
  · rw [if_neg hval]
    cases e with
    | none => exact Or.inr rfl
    | some m => exact Or.inl rfl

theorem moveHandler_store_cases (s : Store) (e : Option Str) (id x y : Str) :
    (moveHandler s e id x y).store = s ∨
    (moveHandler s e id x y).store = hset s id (encodeMove x y) := by
  unfold moveHandler
  by_cases hval : id = [] ∨ x = [] ∨ y = []
  · rw [if_pos hval]; exact Or.inl rfl
  · rw [if_neg hval]
    cases e with
    | none => exact Or.inr rfl
    | some m => exact Or.inl rfl

theorem delHandler_store_cases (s : Store) (e : Option Str) (id : Str) :
    (delHandler s e id).store = s ∨ (delHandler s e id).store = hdel s id := by
  unfold delHandler
  by_cases hval : id = []
  · rw [if_pos hval]; exact Or.inl rfl
  · rw [if_neg hval]
    cases e with
    | none => exact Or.inr rfl
    | some m => exact Or.inl rfl

theorem reachable_values_comma (s : Store) (h : Reachable s) :
    ∀ kv ∈ s, ',' ∈ kv.2 := by
  induction h with
  | init => simp
  | addStep s e id x y _ ih =>
    intro kv hkv
    rcases addHandler_store_cases s e id x y with hs | hs <;> rw [hs] at hkv
    · exact ih kv hkv
    · rcases mem_hsetnx s id (encodeAdd x y) kv hkv with h1 | h2
      · exact ih kv h1
      · rw [h2]; simp [encodeAdd]
  | moveStep s e id x y _ ih =>
    intro kv hkv
    rcases moveHandler_store_cases s e id x y with hs | hs <;> rw [hs] at hkv
    · exact ih kv hkv
    · rcases mem_hset s id (encodeMove x y) kv hkv with h1 | h2
      · exact ih kv h1
      · rw [h2]; simp [encodeMove]
  | delStep s e id _ ih =>
    intro kv hkv
    rcases delHandler_store_cases s e id with hs | hs <;> rw [hs] at hkv
    · exact ih kv hkv
    · exact ih kv (hdel_subset s id kv hkv)

theorem fetchAll_reachable (s : Store) (h : Reachable s) :
    ∃ l, fetchAll s = some l :=
  fetchAll_isSome s fun kv hkv =>
    decodeValue_isSome_of_comma kv.2 (reachable_values_comma s h kv hkv)

/-- C1: the claim says `/move(id, x1, y1)` then `/move(id, x2, y2)` then
`/fetch` yields exactly (x2, y2) for id. The code violates this: the move
path stores `"<x>, <y>"` with a space after the comma, fetch splits on
`","` alone, and `ParseFloat` rejects the leading space of the second
segment, so the ignored error leaves Y = 0. Evaluated at the failing input
id = "g", (x1, y1) = (1, 1), (x2, y2) = (1.5, 2.25): fetch returns
(1.5, 0), while 2.25 (= 9/4) ≠ 0. -/
theorem c1_move_fetch_bug :
    fetchAll
      (moveHandler
        (moveHandler [] none "g".toList "1".toList "1".toList).store
        none "g".toList "1.5".toList "2.25".toList).store
      = some [("g".toList, ⟨mkRat 3 2, 0⟩)] ∧
    parseF "2.25".toList = some (mkRat 9 4) ∧
    parseF " 2.25".toList = none ∧
    (mkRat 9 4 : ℚ) ≠ 0 := by decide

/-- C2 (counterexample): the claim says the value string stored by `/move`
equals the one stored by `/add` for the same x and y. At x = "1", y = "2"
the add path stores "1,2" and the move path stores "1, 2", which differ. -/
theorem c2_counterexample :
    encodeAdd ['1'] ['2'] = "1,2".toList ∧
    encodeMove ['1'] ['2'] = "1, 2".toList ∧
    encodeMove ['1'] ['2'] ≠ encodeAdd ['1'] ['2'] := by decide

/-- C2 (amended): the two write paths never agree: for every pair of
parameter strings, `/add` stores `"<x>,<y>"` while `/move` stores
`"<x>, <y>"` (an extra space after the comma), and the two stored value
strings are distinct. -/
theorem c2_amended (x y : Str) :
    encodeAdd x y = x ++ ',' :: y ∧
    encodeMove x y = x ++ ',' :: ' ' :: y ∧
    encodeMove x y ≠ encodeAdd x y := by
  refine ⟨rfl, rfl, fun h => ?_⟩
  have hl := congrArg List.length h
  simp only [encodeMove, encodeAdd, List.length_append, List.length_cons] at hl
  omega

/-- C3 (counterexample): the claim says a record whose stored value does
not split into two parseable floats is skipped by fetch and never included
with substitute coordinates. At the store holding value "abc,def" the
record is included, with 0 substituted for both unparseable halves. -/
theorem c3_counterexample :
    decodeValue "abc,def".toList = some ⟨0, 0⟩ ∧
    fetchAll [("b".toList, "abc,def".toList)]
      = some [("b".toList, ⟨0, 0⟩)] := by decide

/-- C3 (amended): fetch never skips a record. A stored value that splits
into at least two segments is always included, with 0 substituted for each
segment that fails float parsing; a stored value with fewer than two
segments is not skipped either — it makes the whole fetch abort (the
access to the second segment is out of range). -/
theorem c3_amended :
    (∀ v p0 p1 rest, splitOnComma v = p0 :: p1 :: rest →
      decodeValue v = some ⟨(parseF p0).getD 0, (parseF p1).getD 0⟩) ∧
    (∀ v, (splitOnComma v).length < 2 → decodeValue v = none) ∧
    (∀ s k v, (k, v) ∈ s → decodeValue v = none → fetchAll s = none) := by
  refine ⟨?_, ?_, ?_⟩
  · intro v p0 p1 rest h
    unfold decodeValue
    rw [h]
  · intro v h
    unfold decodeValue
    cases hs : splitOnComma v with
    | nil => rfl
    | cons p0 ps =>
      cases ps with
      | nil => rfl
      | cons p1 r =>
        rw [hs] at h
        simp only [List.length_cons] at h
        omega
  · intro s k v hm hd
    induction s with
    | nil => simp at hm
    | cons kv rest ih =>
      obtain ⟨k0, v0⟩ := kv
      rcases List.mem_cons.mp hm with h1 | h2
      · have hv : v0 = v := (Prod.mk.injEq .. ▸ h1.symm).2
        subst hv
        cases hr : fetchAll rest <;> simp only [fetchAll, hd, hr]
      · cases hd0 : decodeValue v0 <;> simp only [fetchAll, hd0, ih h2]

/-- C3 (amended) at concrete inputs: "abc,def" is included as (0, 0); a
comma-free value "abc" decodes to a panic, which aborts a fetch even when
another well-formed record is present. -/
theorem c3_amended_witness :
    decodeValue "abc,def".toList = some ⟨0, 0⟩ ∧
    decodeValue "abc".toList = none ∧
    fetchAll [("a".toList, "1,2".toList), ("k".toList, "abc".toList)] = none := by
  refine ⟨?_, ?_, ?_⟩
  · have h := c3_amended.1 "abc,def".toList "abc".toList "def".toList []
      (by decide)
    rw [h]
    decide
  · exact c3_amended.2.1 "abc".toList (by decide)
  · exact c3_amended.2.2 _ "k".toList "abc".toList (by decide)
      (c3_amended.2.1 "abc".toList (by decide))

/-- C4 (counterexample): the claim says that for every stored value string
the split yields at least two segments, so a value with no comma cannot
make fetch fail. The value "abc" splits into one segment, the decode
accesses the second segment out of range, and a fetch over a store holding
it aborts. -/
theorem c4_counterexample :
    splitOnComma "abc".toList = ["abc".toList] ∧
    (splitOnComma "abc".toList).length = 1 ∧
    decodeValue "abc".toList = none ∧
    fetchAll [("k".toList, "abc".toList)] = none := by decide

/-- C4 (amended): over store states reachable through the service's own
handlers the decode is total — every stored value contains a comma, each
split yields at least two segments, and the fetch decode of the whole
store succeeds; but over arbitrary stored values it is not: a value
without a comma splits into a single segment and decoding it is an
out-of-range access that aborts the fetch. -/
theorem c4_amended :
    (∀ s, Reachable s → ∃ l, fetchAll s = some l) ∧
    (∀ s, Reachable s → ∀ kv ∈ s, 2 ≤ (splitOnComma kv.2).length) ∧
    (∀ v, ',' ∉ v → splitOnComma v = [v] ∧ decodeValue v = none) := by
  refine ⟨fun s hs => fetchAll_reachable s hs, ?_, ?_⟩
  · intro s hs kv hkv
    exact two_le_splitOnComma_length kv.2 (reachable_values_comma s hs kv hkv)
  · intro v hv
    refine ⟨splitOnComma_no_comma v hv, ?_⟩
    unfold decodeValue
    rw [splitOnComma_no_comma v hv]

/-- C4 (amended) at concrete inputs: a store reached by one successful add
decodes fully; the comma-free value "abc" splits into one segment and
panics the decode. -/
theorem c4_amended_witness :
    (∃ l, fetchAll
      (addHandler [] none "g".toList "1".toList "2".toList).store = some l) ∧
    splitOnComma "abc".toList = ["abc".toList] ∧
    decodeValue "abc".toList = none := by
  refine ⟨c4_amended.1 _ (Reachable.addStep [] none _ _ _ Reachable.init), ?_⟩
  exact c4_amended.2.2 "abc".toList (by decide)

/-- C5 (counterexample): the claim says that in both revisions a handler
whose store command fails never writes the success body "ok". In the first
revision the `/add` handler writes "ok" unconditionally after the store
command: on a failing command with error text "ERR" the response has
status 500 yet its body contains "ok". -/
theorem c5_counterexample :
    (addHandlerV1 [] (some "ERR".toList) "g".toList ['1'] ['2']).status = 500 ∧
    okBody ∈ (addHandlerV1 [] (some "ERR".toList) "g".toList ['1'] ['2']).writes := by
  decide

/-- C5 (amended): in the second revision each of `/add`, `/move`, `/del`
answers a failing store command with status 500 and a body holding only
the error text, and writes "ok" (alone) exactly when the command succeeds;
in the first revision the three handlers write "ok" unconditionally after
the store command, so on failure the 500 response body is the error text
followed by "ok". -/
theorem c5_amended (s : Store) (m id x y : Str)
    (hv : ¬(id = [] ∨ x = [] ∨ y = [])) :
    ((addHandler s (some m) id x y).status = 500 ∧
     (addHandler s (some m) id x y).writes = [m] ∧
     (addHandler s none id x y).status = 200 ∧
     (addHandler s none id x y).writes = [okBody]) ∧
    ((moveHandler s (some m) id x y).status = 500 ∧
     (moveHandler s (some m) id x y).writes = [m] ∧
     (moveHandler s none id x y).status = 200 ∧
     (moveHandler s none id x y).writes = [okBody]) ∧
    ((delHandler s (some m) id).status = 500 ∧
     (delHandler s (some m) id).writes = [m] ∧
     (delHandler s none id).status = 200 ∧
     (delHandler s none id).writes = [okBody]) ∧
    ((addHandlerV1 s (some m) id x y).status = 500 ∧
     (addHandlerV1 s (some m) id x y).writes = [m, okBody]) ∧
    ((moveHandlerV1 s (some m) id x y).status = 500 ∧
     (moveHandlerV1 s (some m) id x y).writes = [m, okBody]) ∧
    ((delHandlerV1 s (some m) id).status = 500 ∧
     (delHandlerV1 s (some m) id).writes = [m, okBody]) := by
  have hid : ¬ id = [] := fun h => hv (Or.inl h)
  refine ⟨?_, ?_, ?_, ?_, ?_, ?_⟩
  · simp [addHandler, hv]
  · simp [moveHandler, hv]
  · simp [delHandler, hid]
  · simp [addHandlerV1, hv]
  · simp [moveHandlerV1, hv]
  · simp [delHandlerV1, hid]

/-- C5 (amended) at a concrete input: id = "g", x = "1", y = "2", error
text "ERR". -/
theorem c5_amended_witness :
    ((addHandler [] (some "ERR".toList) "g".toList ['1'] ['2']).status = 500 ∧
     (addHandler [] (some "ERR".toList) "g".toList ['1'] ['2']).writes = ["ERR".toList] ∧
     (addHandler [] none "g".toList ['1'] ['2']).status = 200 ∧
     (addHandler [] none "g".toList ['1'] ['2']).writes = [okBody]) ∧
    ((moveHandler [] (some "ERR".toList) "g".toList ['1'] ['2']).status = 500 ∧
     (moveHandler [] (some "ERR".toList) "g".toList ['1'] ['2']).writes = ["ERR".toList] ∧
     (moveHandler [] none "g".toList ['1'] ['2']).status = 200 ∧
     (moveHandler [] none "g".toList ['1'] ['2']).writes = [okBody]) ∧
    ((delHandler [] (some "ERR".toList) "g".toList).status = 500 ∧
     (delHandler [] (some "ERR".toList) "g".toList).writes = ["ERR".toList] ∧
     (delHandler [] none "g".toList).status = 200 ∧
     (delHandler [] none "g".toList).writes = [okBody]) ∧
    ((addHandlerV1 [] (some "ERR".toList) "g".toList ['1'] ['2']).status = 500 ∧
     (addHandlerV1 [] (some "ERR".toList) "g".toList ['1'] ['2']).writes = ["ERR".toList, okBody]) ∧
    ((moveHandlerV1 [] (some "ERR".toList) "g".toList ['1'] ['2']).status = 500 ∧
     (moveHandlerV1 [] (some "ERR".toList) "g".toList ['1'] ['2']).writes = ["ERR".toList, okBody]) ∧
    ((delHandlerV1 [] (some "ERR".toList) "g".toList).status = 500 ∧
     (delHandlerV1 [] (some "ERR".toList) "g".toList).writes = ["ERR".toList, okBody]) :=
  c5_amended [] "ERR".toList "g".toList ['1'] ['2'] (by decide)

/-- C6: for every reachable store not containing a valid non-empty id, and
parseable comma-free coordinate strings x and y, `/add` followed by
`/fetch` yields id exactly once, mapped to the Position whose X and Y are
the parsed float values of x and y. -/
theorem c6_add_fetch (s : Store) (id x y : Str) (qx qy : ℚ)
    (hs : Reachable s) (hid : id ≠ []) (hx : parseF x = some qx)
    (hy : parseF y = some qy) (hcx : ',' ∉ x) (hcy : ',' ∉ y)
    (habs : id ∉ s.map Prod.fst) :
    ∃ l, fetchAll (addHandler s none id x y).store = some l ∧
      (l.map Prod.fst).count id = 1 ∧ (id, (⟨qx, qy⟩ : Position)) ∈ l := by
  have hnil : parseF ([] : Str) = none := by decide
  have hxne : x ≠ [] := by
    intro he; rw [he, hnil] at hx; exact Option.noConfusion hx
  have hyne : y ≠ [] := by
    intro he; rw [he, hnil] at hy; exact Option.noConfusion hy
  have hval : ¬ (id = [] ∨ x = [] ∨ y = []) := by
    rintro (h | h | h)
    exacts [hid h, hxne h, hyne h]
  have hstore : (addHandler s none id x y).store = s ++ [(id, encodeAdd x y)] := by
    unfold addHandler
    rw [if_neg hval]
    exact hsetnx_absent s id (encodeAdd x y) habs
  have hdec : decodeValue (encodeAdd x y) = some ⟨qx, qy⟩ := by
    rw [decodeValue_encodeAdd x y hcx hcy, hx, hy]
    rfl
  obtain ⟨ls, hls⟩ := fetchAll_reachable s hs
  have hsingle : fetchAll [(id, encodeAdd x y)]
      = some [(id, (⟨qx, qy⟩ : Position))] := by
    simp only [fetchAll, hdec]
  have hall := fetchAll_append s [(id, encodeAdd x y)] ls _ hls hsingle
  refine ⟨ls ++ [(id, ⟨qx, qy⟩)], ?_, ?_, ?_⟩
  · rw [hstore]
    exact hall
  · have hkeys := fetchAll_keys s ls hls
    rw [List.map_append, List.count_append, hkeys]
    have h0 : (s.map Prod.fst).count id = 0 := List.count_eq_zero.mpr habs
    rw [h0]
    simp
  · exact List.mem_append_right _ (List.mem_singleton.mpr rfl)

/-- C6 at the spec's concrete scenario: `add?id=p1&x=1.5&y=2.25` then
fetch yields p1 exactly once, at (1.5, 2.25) = (3/2, 9/4). -/
theorem c6_add_fetch_witness :
    ∃ l, fetchAll
        (addHandler [] none "p1".toList "1.5".toList "2.25".toList).store
        = some l ∧
      (l.map Prod.fst).count "p1".toList = 1 ∧
      ("p1".toList, (⟨mkRat 3 2, mkRat 9 4⟩ : Position)) ∈ l :=
  c6_add_fetch [] "p1".toList "1.5".toList "2.25".toList (mkRat 3 2)
    (mkRat 9 4) Reachable.init (by decide) (by decide) (by decide)
    (by decide) (by decide) (by decide)

/-- C7: `/add` twice with the same id is create-if-absent: the second call
(with any coordinates) leaves the store unchanged, the stored value is
still the first encoding, and a subsequent fetch still yields the original
coordinates. -/
theorem c7_add_twice (s : Store) (id x y x2 y2 : Str) (qx qy : ℚ)
    (hs : Reachable s) (hid : id ≠ []) (hx : parseF x = some qx)
    (hy : parseF y = some qy) (hcx : ',' ∉ x) (hcy : ',' ∉ y)
    (habs : id ∉ s.map Prod.fst) :
    (addHandler (addHandler s none id x y).store none id x2 y2).store
      = (addHandler s none id x y).store ∧
    hget (addHandler (addHandler s none id x y).store none id x2 y2).store id
      = some (encodeAdd x y) ∧
    ∃ l, fetchAll
        (addHandler (addHandler s none id x y).store none id x2 y2).store
        = some l ∧ (id, (⟨qx, qy⟩ : Position)) ∈ l := by
  have hnil : parseF ([] : Str) = none := by decide
  have hxne : x ≠ [] := by
    intro he; rw [he, hnil] at hx; exact Option.noConfusion hx
  have hyne : y ≠ [] := by
    intro he; rw [he, hnil] at hy; exact Option.noConfusion hy
  have hval : ¬ (id = [] ∨ x = [] ∨ y = []) := by
    rintro (h | h | h)
    exacts [hid h, hxne h, hyne h]
  set s1 := (addHandler s none id x y).store with hs1
  have hstore : s1 = s ++ [(id, encodeAdd x y)] := by
    rw [hs1]
    unfold addHandler
    rw [if_neg hval]
    exact hsetnx_absent s id (encodeAdd x y) habs
  have hkey : id ∈ s1.map Prod.fst := by
    rw [hstore, List.map_append]
    exact List.mem_append_right _ (by simp)
  have h2 : (addHandler s1 none id x2 y2).store = s1 := by
    by_cases hval2 : id = [] ∨ x2 = [] ∨ y2 = []
    · unfold addHandler
      rw [if_pos hval2]
    · unfold addHandler
      rw [if_neg hval2]
      exact hsetnx_present s1 id (encodeAdd x2 y2) hkey
  have hget1 : hget s1 id = some (encodeAdd x y) := by
    rw [hstore]
    exact hget_append_last s id (encodeAdd x y) habs
  have hdec : decodeValue (encodeAdd x y) = some ⟨qx, qy⟩ := by
    rw [decodeValue_encodeAdd x y hcx hcy, hx, hy]
    rfl
  obtain ⟨ls, hls⟩ := fetchAll_reachable s hs
  have hsingle : fetchAll [(id, encodeAdd x y)]
      = some [(id, (⟨qx, qy⟩ : Position))] := by
    simp only [fetchAll, hdec]
  have hall := fetchAll_append s [(id, encodeAdd x y)] ls _ hls hsingle
  refine ⟨h2, by rw [h2]; exact hget1, ls ++ [(id, ⟨qx, qy⟩)], ?_, ?_⟩
  · rw [h2, hstore]
    exact hall
  · exact List.mem_append_right _ (List.mem_singleton.mpr rfl)

/-- C7 at a concrete input: add p1 at (1.5, 2.25), then add p1 again at
(9, 8); the store is unchanged and fetch still yields (3/2, 9/4). -/
theorem c7_add_twice_witness :
    (addHandler
        (addHandler [] none "p1".toList "1.5".toList "2.25".toList).store
        none "p1".toList ['9'] ['8']).store
      = (addHandler [] none "p1".toList "1.5".toList "2.25".toList).store ∧
    hget (addHandler
        (addHandler [] none "p1".toList "1.5".toList "2.25".toList).store
        none "p1".toList ['9'] ['8']).store "p1".toList
      = some (encodeAdd "1.5".toList "2.25".toList) ∧
    ∃ l, fetchAll (addHandler
        (addHandler [] none "p1".toList "1.5".toList "2.25".toList).store
        none "p1".toList ['9'] ['8']).store
        = some l ∧ ("p1".toList, (⟨mkRat 3 2, mkRat 9 4⟩ : Position)) ∈ l :=
  c7_add_twice [] "p1".toList "1.5".toList "2.25".toList ['9'] ['8']
    (mkRat 3 2) (mkRat 9 4) Reachable.init (by decide) (by decide)
    (by decide) (by decide) (by decide) (by decide)

/-- C8: a request to `/add` or `/move` with a missing or empty `id`, `x`
or `y` is answered 400 with the "missing required params" body; the store
is unchanged and no redis command of any kind is issued — regardless of
whether the store would have succeeded or failed. -/
theorem c8_validation (s : Store) (e : Option Str) (id x y : Str)
    (h : id = [] ∨ x = [] ∨ y = []) :
    addHandler s e id x y = ⟨s, 400, [missingParamsBody], []⟩ ∧
    moveHandler s e id x y = ⟨s, 400, [missingParamsBody], []⟩ := by
  constructor
  · unfold addHandler
    rw [if_pos h]
  · unfold moveHandler
    rw [if_pos h]

/-- C8 at a concrete input: id missing (empty), x = "1", y = "2". -/
theorem c8_validation_witness :
    addHandler [] none [] ['1'] ['2'] = ⟨[], 400, [missingParamsBody], []⟩ ∧
    moveHandler [] none [] ['1'] ['2'] = ⟨[], 400, [missingParamsBody], []⟩ :=
  c8_validation [] none [] ['1'] ['2'] (Or.inl rfl)

/-- C9: `/del` with a non-empty id and a succeeding `HDEL` answers 200
"ok" on every reachable store — whether or not the store contains id (the
HDEL reply count is discarded, so deleting an absent id is not an error) —
and a subsequent fetch of the resulting store never contains id. -/
theorem c9_del (s : Store) (id : Str) (hs : Reachable s) (hid : id ≠ []) :
    (delHandler s none id).status = 200 ∧
    (delHandler s none id).writes = [okBody] ∧
    (delHandler s none id).store = hdel s id ∧
    ∃ l, fetchAll (delHandler s none id).store = some l ∧
      id ∉ l.map Prod.fst := by
  have hres : delHandler s none id
      = ⟨hdel s id, 200, [okBody], ["HDEL".toList]⟩ := by
    unfold delHandler
    rw [if_neg hid]
  rw [hres]
  obtain ⟨l, hl⟩ := fetchAll_isSome (hdel s id) (fun kv hkv =>
    decodeValue_isSome_of_comma kv.2
      (reachable_values_comma s hs kv (hdel_subset s id kv hkv)))
  refine ⟨rfl, rfl, rfl, l, hl, ?_⟩
  rw [fetchAll_keys _ _ hl]
  exact hdel_not_key s id

/-- C9 at a concrete input: the spec's scenario — after adding p1, del p1
answers "ok" and the subsequent fetch no longer contains p1 (and deleting
on the resulting p1-free store would again answer "ok"). -/
theorem c9_del_witness :
    (delHandler (addHandler [] none "p1".toList ['1'] ['1']).store none
        "p1".toList).status = 200 ∧
    (delHandler (addHandler [] none "p1".toList ['1'] ['1']).store none
        "p1".toList).writes = [okBody] ∧
    (delHandler (addHandler [] none "p1".toList ['1'] ['1']).store none
        "p1".toList).store
      = hdel (addHandler [] none "p1".toList ['1'] ['1']).store "p1".toList ∧
    ∃ l, fetchAll (delHandler
        (addHandler [] none "p1".toList ['1'] ['1']).store none
        "p1".toList).store = some l ∧ "p1".toList ∉ l.map Prod.fst :=
  c9_del (addHandler [] none "p1".toList ['1'] ['1']).store "p1".toList
    (Reachable.addStep [] none _ _ _ Reachable.init) (by decide)

/-- C10 (implicit behaviour): `/add` and `/move` perform no numeric
validation — any non-empty strings x and y are accepted with body "ok" and
stored verbatim in the respective encodings; on fetch, each half that
fails float parsing is reported as 0 (the parse error is ignored) instead
of the record being rejected. -/
theorem c10_no_numeric_validation (s : Store) (id x y : Str)
    (hid : id ≠ []) (hx : x ≠ []) (hy : y ≠ []) :
    ((addHandler s none id x y).status = 200 ∧
     (addHandler s none id x y).writes = [okBody] ∧
     (id ∉ s.map Prod.fst →
        hget (addHandler s none id x y).store id = some (encodeAdd x y))) ∧
    ((moveHandler s none id x y).status = 200 ∧
     (moveHandler s none id x y).writes = [okBody] ∧
     hget (moveHandler s none id x y).store id = some (encodeMove x y)) ∧
    (',' ∉ x → ',' ∉ y →
      decodeValue (encodeAdd x y)
          = some ⟨(parseF x).getD 0, (parseF y).getD 0⟩ ∧
      (parseF x = none →
        decodeValue (encodeAdd x y) = some ⟨0, (parseF y).getD 0⟩)) := by
  have hval : ¬ (id = [] ∨ x = [] ∨ y = []) := by
    rintro (h | h | h)
    exacts [hid h, hx h, hy h]
  refine ⟨?_, ?_, ?_⟩
  · refine ⟨?_, ?_, fun habs => ?_⟩
    · unfold addHandler
      rw [if_neg hval]
    · unfold addHandler
      rw [if_neg hval]
    · unfold addHandler
      rw [if_neg hval]
      show hget (hsetnx s id (encodeAdd x y)) id = some (encodeAdd x y)
      rw [hsetnx_absent s id (encodeAdd x y) habs]
      exact hget_append_last s id (encodeAdd x y) habs
  · refine ⟨?_, ?_, ?_⟩
    · unfold moveHandler
      rw [if_neg hval]
    · unfold moveHandler
      rw [if_neg hval]
    · unfold moveHandler
      rw [if_neg hval]
      exact hget_hset s id (encodeMove x y)
  · intro hcx hcy
    have h1 := decodeValue_encodeAdd x y hcx hcy
    refine ⟨h1, fun hpx => ?_⟩
    rw [h1, hpx]
    rfl

/-- C10 at a concrete input: x = "abc" (not a number), y = "2.25": add and
move answer "ok" and store "abc,2.25" resp. "abc, 2.25" verbatim; the
fetch decode of the add encoding reports (0, 9/4). -/
theorem c10_witness :
    (addHandler [] none "p1".toList "abc".toList "2.25".toList).status = 200 ∧
    hget (addHandler [] none "p1".toList "abc".toList "2.25".toList).store
        "p1".toList = some (encodeAdd "abc".toList "2.25".toList) ∧
    hget (moveHandler [] none "p1".toList "abc".toList "2.25".toList).store
        "p1".toList = some (encodeMove "abc".toList "2.25".toList) ∧
    decodeValue (encodeAdd "abc".toList "2.25".toList)
      = some ⟨0, mkRat 9 4⟩ := by
  have h := c10_no_numeric_validation [] "p1".toList "abc".toList
    "2.25".toList (by decide) (by decide) (by decide)
  refine ⟨h.1.1, h.1.2.2 (by decide), h.2.1.2.2, ?_⟩
  have h4 := (h.2.2 (by decide) (by decide)).2 (by decide)
  rw [h4]
  decide
